import Mathlib

/-!
Verification development for the vctsdb storage core (WAL, MemTable,
SSTable, flush, query router).  The Rust source is shallowly embedded:

* machine integers are `Nat`/`Int` with explicit two's-complement
  conversion where the code serializes them (`i64`/`u32`/`u64` little
  endian);
* `f64` values are modelled by their 64-bit IEEE-754 bit patterns
  (`Nat < 2^64`): the storage core moves values verbatim (writes the raw
  LE bytes and reads them back) and never computes with them;
* strings (series names, tag keys/values) are modelled as their byte
  sequences (`List Nat`); every name the code accepts is validated
  ASCII, for which UTF-8 is one byte per character;
* files are `List Nat` byte lists, fallible code returns `Except`;
* `async`/locking structure is elided: each claim concerns the
  sequential semantics of one lock-holding critical section.
-/

namespace Vctsdb

/-- A byte, stored as a `Nat`; encoders normalize modulo 256. -/
abbrev Byte := Nat

/-- Little-endian reassembly of a byte list into a `Nat`
(`u32::from_le_bytes` / `u64::from_le_bytes`). -/
def leNat (bs : List Byte) : Nat :=
  bs.foldr (fun b acc => b % 256 + 256 * acc) 0

/-- `u32::to_le_bytes`. -/
def u32le (x : Nat) : List Byte :=
  [x % 256, x / 256 % 256, x / 65536 % 256, x / 16777216 % 256]

/-- `u64::to_le_bytes`. -/
def u64le (x : Nat) : List Byte :=
  [x % 256, x / 256 % 256, x / 65536 % 256, x / 16777216 % 256,
   x / 4294967296 % 256, x / 1099511627776 % 256,
   x / 281474976710656 % 256, x / 72057594037927936 % 256]

/-- `i64::to_le_bytes`: two's-complement encoding. `Int.emod` by `2^64`
is nonnegative, so `toNat` is faithful. -/
def i64le (x : Int) : List Byte :=
  u64le ((x % (18446744073709551616 : Int)).toNat)

/-- Decode a `Nat` read little-endian as a two's-complement `i64`. -/
def decodeI64 (m : Nat) : Int :=
  if m < 9223372036854775808 then (m : Int)
  else (m : Int) - 18446744073709551616

/-- `i64::MAX`, the sentinel the flush path starts from. -/
def i64Max : Int := 9223372036854775807

/-- `i64::MIN`. -/
def i64Min : Int := -9223372036854775808

/-- One step of the reflected CRC-32C (Castagnoli) bit loop:
shift right once, conditionally xor the reversed polynomial
`0x82F63B78` (`CRC_32_ISCSI` of the `crc` crate). -/
def crcStep (c : Nat) : Nat :=
  if c % 2 = 1 then Nat.xor (c / 2) 2197175160 else c / 2

/-- Fold one input byte into the CRC-32C state (8 bit steps). -/
def crcByte (c : Nat) (b : Byte) : Nat :=
  crcStep (crcStep (crcStep (crcStep (crcStep (crcStep (crcStep (crcStep
    (Nat.xor c (b % 256)))))))))

/-- CRC-32C over a byte list: init `0xFFFFFFFF`, reflected, final xor
`0xFFFFFFFF` — the `Crc<u32>::new(&CRC_32_ISCSI)` digest of the source. -/
def crc32c (bs : List Byte) : Nat :=
  Nat.xor (bs.foldl crcByte 4294967295) 4294967295

/-- Force a `Nat` to a literal before continuing: evaluation helper
that keeps kernel reduction of long CRC folds shallow. -/
def seqNat (n : Nat) (f : Nat → Nat) : Nat :=
  match n with
  | 0 => f 0
  | m + 1 => f (m + 1)

/-- Tail-recursive CRC fold with a forced accumulator; proved equal to
the `foldl` in `crc32c`. -/
def crcList : List Byte → Nat → Nat
  | [], acc => acc
  | b :: bs, acc => seqNat (crcByte acc b) (crcList bs)

/-- `crc32c` by way of `crcList`; used to evaluate concrete CRCs. -/
def crcFast (bs : List Byte) : Nat :=
  Nat.xor (crcList bs 4294967295) 4294967295

/-! ## Data model (`src/storage/data.rs`)

`DataPoint` carries a timestamp, a value (an `f64`, modelled by its bit
pattern), and a tag map.  The tag map is modelled as an association
list of byte strings in the map's (arbitrary) iteration order. -/

/-- `DataError` of `data.rs` (payload messages dropped). -/
inductive DataError where
  | InvalidTimestamp
  | InvalidSeriesName
  | InvalidTagKey
  | InvalidTagValue
  | NonIncreasingTimestamp
  deriving DecidableEq, Repr

/-- `DataPoint`: `(timestamp, value, tags)`.  `value` is the IEEE-754
bit pattern of the `f64`; `tags` is the tag map as an association list
of UTF-8 byte strings. -/
structure DataPoint where
  timestamp : Int
  value : Nat
  tags : List (List Byte × List Byte)
  deriving DecidableEq, Repr

/-- A byte string is ASCII when every byte is below 128; on valid UTF-8
this coincides with `str::chars().all(|c| c.is_ascii())`. -/
def asciiBytes (bs : List Byte) : Bool :=
  bs.all (fun b => b < 128)

/-- `DataPoint::validate`: negative timestamps are rejected, then each
tag key and value must be ASCII. -/
def DataPoint.validate (p : DataPoint) : Except DataError Unit :=
  if p.timestamp < 0 then .error .InvalidTimestamp
  else validateTags p.tags
where
  /-- The tag-checking loop of `DataPoint::validate`. -/
  validateTags : List (List Byte × List Byte) → Except DataError Unit
  | [] => .ok ()
  | (k, v) :: rest =>
    if ¬ asciiBytes k then .error .InvalidTagKey
    else if ¬ asciiBytes v then .error .InvalidTagValue
    else validateTags rest

/-- In-memory state of a `TimeSeries`: name, stored points, and the
last-seen timestamp used for the monotonic check. -/
structure TSState where
  name : List Byte
  points : List DataPoint
  last_timestamp : Int
  deriving DecidableEq, Repr

/-- `TimeSeries::new`: rejects empty or non-ASCII names; otherwise the
fresh series has no points and `last_timestamp = 0`. -/
def TimeSeries.new (name : List Byte) : Except DataError TSState :=
  if name = [] then .error .InvalidSeriesName
  else if ¬ asciiBytes name then .error .InvalidSeriesName
  else .ok { name, points := [], last_timestamp := 0 }

/-- `TimeSeries::add_point`: validate, reject `timestamp ≤ last`,
otherwise update `last_timestamp` and append. -/
def TimeSeries.addPoint (st : TSState) (p : DataPoint) :
    Except DataError TSState :=
  match p.validate with
  | .error e => .error e
  | .ok _ =>
    if p.timestamp ≤ st.last_timestamp then .error .NonIncreasingTimestamp
    else .ok { st with last_timestamp := p.timestamp,
                       points := st.points ++ [p] }

/-! ## MemTable (`src/storage/lsm/memtable.rs`)

The `HashMap<String, Vec<DataPoint>>` is modelled as an association
list in the map's iteration order.  `HashMap` iteration order is
arbitrary (`RandomState`), so theorems that quantify over `MemState`
quantify over every possible iteration order; `entry().or_insert_with`
is modelled as appending a fresh key at the end (one admissible
iteration order for the grown map). -/

/-- `MemTableError` of `memtable.rs`. -/
inductive MemTableError where
  | Full
  | InvalidTimestampOrder
  deriving DecidableEq, Repr

/-- In-memory state of a `MemTable`. -/
structure MemState where
  capacity : Nat
  size : Nat
  data : List (List Byte × List DataPoint)
  deriving DecidableEq, Repr

/-- `MemTable::new`. -/
def MemTable.new (capacity : Nat) : MemState :=
  { capacity, size := 0, data := [] }

/-- Association-list lookup modelling `HashMap::get`. -/
def findSeries (data : List (List Byte × List DataPoint)) (name : List Byte) :
    Option (List DataPoint) :=
  match data with
  | [] => none
  | (n, pts) :: rest => if n = name then some pts else findSeries rest name

/-- Append a point to a series' vector, creating the entry when absent
(`entry(name).or_insert_with(Vec::new)` followed by `push`). -/
def appendPoint (data : List (List Byte × List DataPoint)) (name : List Byte)
    (p : DataPoint) : List (List Byte × List DataPoint) :=
  match data with
  | [] => [(name, [p])]
  | (n, pts) :: rest =>
    if n = name then (n, pts ++ [p]) :: rest
    else (n, pts) :: appendPoint rest name p

/-- `MemTable::insert`: compute `needs_flush` from the pre-insert size,
reject a timestamp not above the series' last stored point, otherwise
store the point.  Returns the result together with the post-call state
(unchanged on error). -/
def MemTable.insert (st : MemState) (name : List Byte) (p : DataPoint) :
    Except MemTableError Bool × MemState :=
  let needs_flush : Bool := decide (st.size + 1 ≥ st.capacity)
  let pts := (findSeries st.data name).getD []
  match pts.getLast? with
  | some last_point =>
    if p.timestamp ≤ last_point.timestamp then
      (.error .InvalidTimestampOrder, st)
    else
      (.ok needs_flush,
       { st with size := st.size + 1, data := appendPoint st.data name p })
  | none =>
    (.ok needs_flush,
     { st with size := st.size + 1, data := appendPoint st.data name p })

/-- `start ≤ ts && ts ≤ end`, the range filter used throughout. -/
def inRange (a b t : Int) : Bool :=
  decide (t ≥ a) && decide (t ≤ b)

/-- `MemTable::get_range`: every stored `(series, point)` whose
timestamp lies in `[a, b]`, in map-iteration order, each series'
points in stored order. -/
def MemTable.getRange (st : MemState) (a b : Int) :
    List (List Byte × DataPoint) :=
  st.data.flatMap fun sp =>
    (sp.2.filter fun p => inRange a b p.timestamp).map fun p => (sp.1, p)

/-- `MemTable::get_series_range`: the series' stored points whose
timestamps lie in `[a, b]`, in stored order. -/
def MemTable.getSeriesRange (st : MemState) (name : List Byte) (a b : Int) :
    List DataPoint :=
  match findSeries st.data name with
  | some pts => pts.filter fun p => inRange a b p.timestamp
  | none => []

/-! ## SSTable (`src/storage/lsm/sstable.rs`)

The file is a byte list; the handle carries the file plus the
in-memory metadata.  I/O failures of the underlying filesystem are not
modelled (writes succeed); the read path's error cases on malformed
bytes are.  Series names and tag maps inside blocks are kept as raw
byte strings: the reader's UTF-8 and JSON validation of those bytes is
not modelled (no claim depends on it), only their framing is. -/

/-- `SSTableError` (payloads of `Io`, `Utf8`, `Json` dropped). -/
inductive SSTableError where
  | Io
  | InvalidBlockIndex
  | Utf8
  | Json
  | InvalidMagic
  | UnsupportedVersion (v : Nat)
  deriving DecidableEq, Repr

/-- `DataBlock` of `sstable.rs`. -/
structure DataBlock where
  start_timestamp : Int
  timestamp_deltas : List Int
  values : List Nat
  series_names : List (List Byte)
  tags : List (List Byte)
  deriving DecidableEq, Repr

/-- `BlockMetadata`. -/
structure BlockMetadata where
  offset : Nat
  point_count : Nat
  start_timestamp : Int
  deriving DecidableEq, Repr

/-- `SSTableMetadata`. -/
structure SSTableMetadata where
  point_count : Nat
  min_timestamp : Int
  max_timestamp : Int
  series_names : List (List Byte)
  blocks : List BlockMetadata
  deriving DecidableEq, Repr

/-- An `SSTable` handle: the file's bytes plus the in-memory metadata.
The write position is the end of the file, which holds for every state
reached by `new` followed by `write_block` calls only. -/
structure SSTableState where
  file : List Byte
  metadata : SSTableMetadata
  deriving DecidableEq, Repr

/-- `0x53535442`, the SSTable magic. -/
def SSTABLE_MAGIC : Nat := 1397966914

/-- SSTable format version. -/
def SSTABLE_VERSION : Nat := 1

/-- `SSTable::new`: header written, metadata initialized with sentinel
min/max (`i64::MAX` / `i64::MIN`). -/
def SSTable.new : SSTableState :=
  { file := u32le SSTABLE_MAGIC ++ u32le SSTABLE_VERSION,
    metadata := { point_count := 0, min_timestamp := i64Max,
                  max_timestamp := i64Min, series_names := [],
                  blocks := [] } }

/-- A length-prefixed field: `u32 LE length` then the raw bytes
(series names and JSON-encoded tag maps). -/
def lenPrefixed (bs : List Byte) : List Byte :=
  u32le bs.length ++ bs

/-- `SSTable::write_block_data`: block header, deltas, values, series
names, tag maps, all little-endian. -/
def writeBlockData (blk : DataBlock) : List Byte :=
  i64le blk.start_timestamp
    ++ u32le blk.timestamp_deltas.length
    ++ (blk.timestamp_deltas.map i64le).flatten
    ++ (blk.values.map u64le).flatten
    ++ (blk.series_names.map lenPrefixed).flatten
    ++ (blk.tags.map lenPrefixed).flatten

/-- The series-name union loop of `write_block`: push each name not
already present, preserving first-seen order. -/
def unionNames (acc : List (List Byte)) : List (List Byte) → List (List Byte)
  | [] => acc
  | n :: rest =>
    if acc.contains n then unionNames acc rest
    else unionNames (acc ++ [n]) rest

/-- `SSTable::write_block`: record the block's offset, update
`point_count` (by the DELTA count), `min_timestamp` (with the block's
start), `max_timestamp` (with start plus the LAST delta), the series
union and the offset table, then append the encoded block bytes. -/
def SSTable.writeBlock (st : SSTableState) (blk : DataBlock) : SSTableState :=
  let offset := st.file.length
  let md := st.metadata
  { file := st.file ++ writeBlockData blk,
    metadata :=
      { point_count := md.point_count + blk.timestamp_deltas.length,
        min_timestamp := min md.min_timestamp blk.start_timestamp,
        max_timestamp := max md.max_timestamp
          (blk.start_timestamp + (blk.timestamp_deltas.getLast?.getD 0)),
        series_names := unionNames md.series_names blk.series_names,
        blocks := md.blocks ++
          [{ offset, point_count := blk.timestamp_deltas.length,
             start_timestamp := blk.start_timestamp }] } }

/-- `read_exact` on a byte list: take `n` bytes or fail with `Io`. -/
def takeBytes (n : Nat) (bs : List Byte) :
    Except SSTableError (List Byte × List Byte) :=
  if bs.length < n then .error .Io else .ok (bs.take n, bs.drop n)

/-- Read `n` fixed-width little-endian integers of `w` bytes each. -/
def readInts (w : Nat) : Nat → List Byte → Except SSTableError (List Nat × List Byte)
  | 0, bs => .ok ([], bs)
  | n + 1, bs => do
    let (chunk, rest) ← takeBytes w bs
    let (xs, rest) ← readInts w n rest
    .ok (leNat chunk :: xs, rest)

/-- Read `n` length-prefixed byte strings (`u32 LE len`, then `len`
raw bytes). -/
def readLenPrefixed : Nat → List Byte → Except SSTableError (List (List Byte) × List Byte)
  | 0, bs => .ok ([], bs)
  | n + 1, bs => do
    let (lenBytes, rest) ← takeBytes 4 bs
    let (s, rest) ← takeBytes (leNat lenBytes) rest
    let (ss, rest) ← readLenPrefixed n rest
    .ok (s :: ss, rest)

/-- `SSTable::read_block_data`: parse a block at the current position,
checking the stored point count against the metadata's. -/
def readBlockData (bs : List Byte) (point_count : Nat) :
    Except SSTableError DataBlock := do
  let (startBytes, rest) ← takeBytes 8 bs
  let start_timestamp := decodeI64 (leNat startBytes)
  let (countBytes, rest) ← takeBytes 4 rest
  if leNat countBytes ≠ point_count then .error .Io
  else do
    let (deltas, rest) ← readInts 8 point_count rest
    let (vals, rest) ← readInts 8 point_count rest
    let (names, rest) ← readLenPrefixed point_count rest
    let (tagStrs, _) ← readLenPrefixed point_count rest
    .ok { start_timestamp,
          timestamp_deltas := deltas.map decodeI64,
          values := vals,
          series_names := names,
          tags := tagStrs }

/-- `SSTable::read_block`: look up block `i` in the in-memory offset
table (failing with `InvalidBlockIndex`), seek to its offset and
decode. -/
def SSTable.readBlock (st : SSTableState) (i : Nat) :
    Except SSTableError DataBlock :=
  match st.metadata.blocks.get? i with
  | none => .error .InvalidBlockIndex
  | some bm => readBlockData (st.file.drop bm.offset) bm.point_count

/-- `SSTable::scan_blocks`: decode each indexed block in order,
silently skipping blocks whose decode fails. -/
def SSTable.scanBlocks (st : SSTableState) : List DataBlock :=
  (List.range st.metadata.blocks.length).filterMap fun i =>
    (SSTable.readBlock st i).toOption

/-- `SSTable::open`: validate magic and version, then return a handle
whose metadata is freshly initialized — empty block index, zero point
count, sentinel min/max.  No sequential scan is performed. -/
def SSTable.open (file : List Byte) : Except SSTableError SSTableState := do
  let (magicBytes, rest) ← takeBytes 4 file
  if leNat magicBytes ≠ SSTABLE_MAGIC then .error .InvalidMagic
  else do
    let (versionBytes, _) ← takeBytes 4 rest
    if leNat versionBytes ≠ SSTABLE_VERSION then
      .error (.UnsupportedVersion (leNat versionBytes))
    else
      .ok { file,
            metadata := { point_count := 0, min_timestamp := i64Max,
                          max_timestamp := i64Min, series_names := [],
                          blocks := [] } }

/-! ## Flush (`src/storage/lsm/flush.rs`)

`FlushManager::start_flush` snapshots the MemTable's map, builds one
`DataBlock` per series and writes each with `write_block`, then swaps
in a fresh empty MemTable of the same capacity.  The tag map of each
point is serialized with `serde_json::to_vec`; the encoder below
covers maps whose keys and values contain no byte that JSON string
syntax escapes (every theorem only exercises the empty map, which
serializes to `\x7b\x7d`). -/

/-- Compact JSON serialization of a tag map (`serde_json::to_vec`),
for maps whose keys/values need no escaping: 123/125 are the brace
bytes, 34 the quote, 58 the colon, 44 the comma. -/
def encodeTagsJson (tags : List (List Byte × List Byte)) : List Byte :=
  let fields := tags.map fun kv => [34] ++ kv.1 ++ [34, 58, 34] ++ kv.2 ++ [34]
  [123] ++ (List.intercalate [44] fields) ++ [125]

/-- The accumulator of the per-series loop in `start_flush`. -/
structure FlushAcc where
  start_timestamp : Int
  timestamp_deltas : List Int
  values : List Nat
  tags : List (List Byte)

/-- One iteration of the point loop: the first point (while the start
sentinel is still `i64::MAX`) sets `start_timestamp` and pushes NO
delta; every later point pushes `timestamp - start_timestamp` (the
difference from the block start, not from the previous point). -/
def flushStep (acc : FlushAcc) (p : DataPoint) : FlushAcc :=
  let acc :=
    if acc.start_timestamp = i64Max then
      { acc with start_timestamp := p.timestamp }
    else
      { acc with timestamp_deltas :=
          acc.timestamp_deltas ++ [p.timestamp - acc.start_timestamp] }
  { acc with values := acc.values ++ [p.value],
             tags := acc.tags ++ [encodeTagsJson p.tags] }

/-- The `DataBlock` `start_flush` builds for one series: deltas as
above, and a SINGLE series name for the whole block
(`series_names: vec![series_name]`). -/
def buildFlushBlock (name : List Byte) (points : List DataPoint) : DataBlock :=
  let acc := points.foldl flushStep
    { start_timestamp := i64Max, timestamp_deltas := [], values := [],
      tags := [] }
  { start_timestamp := acc.start_timestamp,
    timestamp_deltas := acc.timestamp_deltas,
    values := acc.values,
    series_names := [name],
    tags := acc.tags }

/-- The whole flush: write one block per series of the snapshotted map
(in iteration order) into a fresh SSTable; the MemTable is then
swapped for `MemTable.new capacity`. -/
def flushMemTable (mem : MemState) (st0 : SSTableState) : SSTableState :=
  mem.data.foldl (fun st sp => SSTable.writeBlock st (buildFlushBlock sp.1 sp.2)) st0

/-! ## Query router (`src/storage/lsm/query.rs`)

`QueryRouter::route_query` collects the MemTable points first (adding
each timestamp to a seen-set), then walks every SSTable's decoded
blocks in file order: a block is skipped when its `start_timestamp`
exceeds the query end; otherwise the reader zips
`timestamp_deltas`/`values`/`series_names` (truncating to the
shortest), accumulates the running timestamp, and emits points that
match the series, lie in range and were not seen.  Results are finally
stable-sorted by timestamp. -/

/-- Resolve running timestamps along the zipped entries: entry `i`
carries `start + Σ deltas up to i` (the reader's `current += delta`
before each check). -/
def withTimestamps (cur : Int) :
    List (Int × Nat × List Byte) → List (Int × Nat × List Byte)
  | [] => []
  | (d, v, n) :: rest => (cur + d, v, n) :: withTimestamps (cur + d) rest

/-- Zip deltas, values and series names, truncating to the shortest
(the iterator-zip semantics of the scanning loop). -/
def zipBlock (blk : DataBlock) : List (Int × Nat × List Byte) :=
  blk.timestamp_deltas.zip (blk.values.zip blk.series_names)

/-- The points of a block as the reader decodes them:
(timestamp, value, series name) triples. -/
def decodedPoints (blk : DataBlock) : List (Int × Nat × List Byte) :=
  withTimestamps blk.start_timestamp (zipBlock blk)

/-- The emit loop over one block's decoded points: emit `(ts, value)`
when the series matches, the timestamp is in `[a, b]` and not yet
seen; every emitted timestamp joins the seen-set. -/
def scanPoints (qn : List Byte) (a b : Int) :
    List (Int × Nat × List Byte) → List Int → List (Int × Nat) × List Int
  | [], seen => ([], seen)
  | (t, v, n) :: rest, seen =>
    if inRange a b t && (n = qn : Bool) && !(seen.contains t) then
      let (e, s) := scanPoints qn a b rest (t :: seen)
      ((t, v) :: e, s)
    else
      scanPoints qn a b rest seen

/-- Process one decoded block: skipped entirely when
`start_timestamp > end`. -/
def scanBlock (qn : List Byte) (a b : Int) (blk : DataBlock) (seen : List Int) :
    List (Int × Nat) × List Int :=
  if blk.start_timestamp ≤ b then
    scanPoints qn a b (decodedPoints blk) seen
  else
    ([], seen)

/-- Process a list of decoded blocks in order, threading the seen-set. -/
def scanBlockList (qn : List Byte) (a b : Int) :
    List DataBlock → List Int → List (Int × Nat) × List Int
  | [], seen => ([], seen)
  | blk :: rest, seen =>
    let (e1, s1) := scanBlock qn a b blk seen
    let (e2, s2) := scanBlockList qn a b rest s1
    (e1 ++ e2, s2)

/-- `p.timestamp ≤ q.timestamp`, the key order of the final
`sort_by_key`. -/
def tsLE (p q : DataPoint) : Prop :=
  p.timestamp ≤ q.timestamp

instance : DecidableRel tsLE := fun p q =>
  inferInstanceAs (Decidable (p.timestamp ≤ q.timestamp))

instance : IsTotal DataPoint tsLE := ⟨fun p q => le_total p.timestamp q.timestamp⟩

instance : IsTrans DataPoint tsLE := ⟨fun _ _ _ h1 h2 => le_trans h1 h2⟩

/-- Rust's `sort_by_key` is a stable sort; insertion sort is stable,
and every claim proved below additionally shows the sorted timestamps
pairwise distinct, which pins the output uniquely. -/
def sortByTimestamp (l : List DataPoint) : List DataPoint :=
  l.insertionSort tsLE

/-- `QueryRouter::route_query` for a query with a series name:
MemTable points first (each timestamp recorded as seen), then the
SSTables' blocks in order, then a stable sort by timestamp.  Points
emitted from SSTables carry an empty tag map
(`DataPoint::new(ts, value, HashMap::new())`). -/
def routeQuery (mem : MemState) (ssts : List SSTableState) (qn : List Byte)
    (a b : Int) : List DataPoint :=
  let memtable_points :=
    (MemTable.getSeriesRange mem qn a b).filter fun p => inRange a b p.timestamp
  let seen := memtable_points.map (·.timestamp)
  let (emitted, _) :=
    scanBlockList qn a b (ssts.map SSTable.scanBlocks).flatten seen
  sortByTimestamp
    (memtable_points ++ emitted.map fun tv => ⟨tv.1, tv.2, []⟩)

/-! ## Write-ahead log (`src/storage/wal.rs`)

Entries are serialized to JSON by `serde_json::to_string`; the JSON
serializer itself is not modelled — an entry's serialized bytes are
carried as data, and concrete theorems supply the exact bytes serde
produces.  `write_entry` appends the JSON line, a newline, the 4-byte
little-endian CRC-32C of the JSON bytes, and a final newline. -/

/-- The framed bytes `write_entry` appends for one entry whose
serialized JSON is `json`: the CRC is computed over the JSON bytes
only (no newline). -/
def writeEntryFrame (json : List Byte) : List Byte :=
  json ++ [10] ++ u32le (crc32c json) ++ [10]

/-- What `verify_segment`'s entry loop observes for an entry written
by `write_entry`: `read_line` returns the JSON line INCLUDING its
trailing newline byte, and the next 4 bytes decode to the stored CRC. -/
def writtenEntryLine (json : List Byte) : List Byte × Nat :=
  (json ++ [10], crc32c json)

/-- The CRC comparison of `verify_segment` on one (line, stored CRC)
pair: the digest is fed `line.as_bytes()` — the whole line as read,
trailing newline included. -/
def verifyEntryCrc (line : List Byte) (stored : Nat) : Bool :=
  crc32c line == stored

/-- `verify_segment` restricted to its entry loop, on a segment whose
header is valid and whose entry lines parse as JSON (both hold for a
segment produced by `append` alone, whose lines serde itself wrote):
the segment verifies when every entry's CRC check passes. -/
def verifySegmentEntries (entries : List (List Byte × Nat)) : Bool :=
  entries.all fun e => verifyEntryCrc e.1 e.2

/-- A WAL segment file as replay sees it: the decoded entries in file
order, i.e. `(series_name, point)` in the order `append` wrote them,
together with the instant the file was created. -/
structure WalSegment where
  createdAtFile : Nat
  entries : List (List Byte × DataPoint)
  deriving DecidableEq, Repr

/-- `Segment::new` as called by `get_segments` during replay: the
`created_at` field is set to `SystemTime::now()` AT SCAN TIME — the
same instant for every segment of the directory — not to the file's
creation time. -/
def segmentScanKey (now : Nat) (s : WalSegment) : Nat :=
  let _ := s
  now

/-- Sort key order for `sort_by_key(|s| s.created_at)`; the Rust sort
is stable, as is insertion sort. -/
def scanKeyLE (now : Nat) (s t : WalSegment) : Prop :=
  segmentScanKey now s ≤ segmentScanKey now t

instance (now : Nat) : DecidableRel (scanKeyLE now) := fun s t =>
  inferInstanceAs (Decidable (segmentScanKey now s ≤ segmentScanKey now t))

/-- `WriteAheadLog::replay`: enumerate the directory (an order the
filesystem chooses, passed here as the list order), stable-sort the
segments by their scan-time `created_at`, and replay each segment's
entries in file order.  The callback sequence is the concatenation. -/
def walReplay (dirListing : List WalSegment) (now : Nat) :
    List (List Byte × DataPoint) :=
  ((dirListing.insertionSort (scanKeyLE now)).map (·.entries)).flatten

/-! ## Concrete inputs used by the claim theorems -/

/-- The IEEE-754 bit pattern of `42.0f64`. -/
def v42 : Nat := 4631107791820423168

/-- The reconstructed timestamps of a delta list, per the invariant of
the spec and the readers' running sum: entry `i` carries
`start + Σ deltas[0..=i]`. -/
def reconTimestamps (start : Int) : List Int → List Int
  | [] => []
  | d :: rest => (start + d) :: reconTimestamps (start + d) rest

/-- A MemTable holding one point `(1000, 42.0)` for series `"s"`
(byte 115), as produced by one successful `insert`. -/
def memC1 : MemState :=
  { capacity := 1000, size := 1, data := [([115], [⟨1000, v42, []⟩])] }

/-- The repository's own test block (`test_sstable_write_and_read`):
`start = 1000`, deltas `[0, 1, 2]`, three points of series `"s"`,
tag maps serialized as `\x7b\x7d`. -/
def blkTest : DataBlock :=
  { start_timestamp := 1000, timestamp_deltas := [0, 1, 2],
    values := [1, 2, 3],
    series_names := [[115], [115], [115]],
    tags := [[123, 125], [123, 125], [123, 125]] }

/-- The bytes `serde_json::to_string` produces for the `WalEntry` of
series `"s"`, timestamp 1, value 1.0, empty tags and `crc = 0`, i.e.
the line `write_entry` appends (without its newline). -/
def jsonEntryC4 : List Byte :=
  [123, 34, 115, 101, 114, 105, 101, 115, 95, 110, 97, 109, 101, 34, 58, 34,
   115, 34, 44, 34, 116, 105, 109, 101, 115, 116, 97, 109, 112, 34, 58, 49,
   44, 34, 118, 97, 108, 117, 101, 34, 58, 49, 46, 48, 44, 34, 116, 97, 103,
   115, 34, 58, 123, 125, 44, 34, 99, 114, 99, 34, 58, 48, 125]

/-- A MemTable reached by inserting `(100, bits 0)` for series `"a"`
(byte 97) and then `(50, bits 0)` for series `"b"` (byte 98), with the
map iterating `"a"` before `"b"` — an admissible `HashMap` order. -/
def memC7 : MemState :=
  { capacity := 1000, size := 2,
    data := [([97], [⟨100, 0, []⟩]), ([98], [⟨50, 0, []⟩])] }

/-- A block whose single point decodes to timestamp 150 (start 300,
delta -150): the reader reconstructs 150 yet the block-skip test only
looks at `start_timestamp`. -/
def blkC2 : DataBlock :=
  { start_timestamp := 300, timestamp_deltas := [-150], values := [5],
    series_names := [[115]], tags := [[123, 125]] }

/-- MemTable for the C2 witness: series `"s"` holding points at
timestamps 150 and 200. -/
def memC2w : MemState :=
  { capacity := 1000, size := 2,
    data := [([115], [⟨150, 10, []⟩, ⟨200, 20, []⟩])] }

/-- SSTable block for the C2 witness: two points of series `"s"` at
timestamps 100 and 150 (the repository's merge-test block). -/
def blkC2w : DataBlock :=
  { start_timestamp := 100, timestamp_deltas := [0, 50], values := [7, 8],
    series_names := [[115], [115]], tags := [[123, 125], [123, 125]] }

/-- First WAL segment of the C3 scenario: created at second 100,
holding the first appended point. -/
def segA : WalSegment := ⟨100, [([115], ⟨1000, v42, []⟩)]⟩

/-- Second WAL segment of the C3 scenario: created at second 101 after
a rotation, holding the second appended point. -/
def segB : WalSegment := ⟨101, [([115], ⟨2000, v42, []⟩)]⟩

/-! ## Claim theorems -/

theorem seqNat_eq (n : Nat) (f : Nat → Nat) : seqNat n f = f n := by
  cases n <;> rfl

theorem crcList_eq (bs : List Byte) :
    ∀ acc, crcList bs acc = bs.foldl crcByte acc := by
  induction bs with
  | nil => intro acc; rfl
  | cons b bs ih => intro acc; simp [crcList, seqNat_eq, List.foldl, ih]

theorem crc32c_eq_fast (bs : List Byte) : crc32c bs = crcFast bs := by
  simp [crc32c, crcFast, crcList_eq]

theorem findSeries_appendPoint (data : List (List Byte × List DataPoint))
    (name : List Byte) (p : DataPoint) :
    findSeries (appendPoint data name p) name =
      some ((findSeries data name).getD [] ++ [p]) := by
  induction data with
  | nil => simp [appendPoint, findSeries]
  | cons hd rest ih =>
    by_cases h : hd.1 = name
    · simp [appendPoint, findSeries, h]
    · simpa [appendPoint, findSeries, h] using ih

/-- C1 (code bug).  Writing one point `(1000, 42.0)` for series `"s"`
through the write path, flushing it, and querying the resulting
SSTable over `[min, max] = [1000, 1000]` yields the empty list, not
the written point: the flush path records `point_count =
timestamp_deltas.len() = n - 1` (here 0) while writing `n` values and
a single series name, so the reader decodes an empty block. -/
theorem flush_then_query_loses_written_point :
    routeQuery (MemTable.new 1000) [flushMemTable memC1 SSTable.new]
        [115] 1000 1000 = []
    ∧ MemTable.getSeriesRange memC1 [115] 1000 1000 = [⟨1000, v42, []⟩]
    ∧ ([] : List DataPoint) ≠ [⟨1000, v42, []⟩] := by
  refine ⟨by decide, by decide, by decide⟩

/-- C3 (code bug).  Two points appended across a segment rotation land
in segments created at seconds 100 and 101; when the recovery scan
enumerates the directory as `[segB, segA]`, `replay` yields the points
in the order `p2, p1` — not append order — because `get_segments`
stamps every segment with the scan-time clock, so the sort by
`created_at` degenerates to directory order. -/
theorem replay_order_follows_directory_order :
    walReplay [segB, segA] 500 =
      [([115], ⟨2000, v42, []⟩), ([115], ⟨1000, v42, []⟩)]
    ∧ walReplay [segB, segA] 500 ≠
      [([115], ⟨1000, v42, []⟩), ([115], ⟨2000, v42, []⟩)]
    ∧ segA.createdAtFile < segB.createdAtFile := by
  refine ⟨by decide, by decide, by decide⟩

/-- C4 (code bug).  On a segment holding exactly one entry written by
`append`, `verify()` returns `false`: `verify_segment` digests the
whole line returned by `read_line` — trailing newline included — while
`write_entry` stored the CRC of the JSON bytes alone, and the two
CRC-32C values differ. -/
theorem verify_rejects_cleanly_written_segment :
    verifySegmentEntries [writtenEntryLine jsonEntryC4] = false
    ∧ crc32c jsonEntryC4 = 594471328
    ∧ crc32c (jsonEntryC4 ++ [10]) = 2616696870 := by
  have h1 : crc32c jsonEntryC4 = 594471328 := by
    rw [crc32c_eq_fast]; decide
  have h2 : crc32c (jsonEntryC4 ++ [10]) = 2616696870 := by
    rw [crc32c_eq_fast]; decide
  refine ⟨?_, h1, h2⟩
  simp [verifySegmentEntries, writtenEntryLine, verifyEntryCrc, h1, h2]

/-- C5 (code bug).  Opening a version-1 SSTable file that contains one
block reconstructs nothing: `open` validates the header and then
initializes EMPTY metadata (no sequential scan), so `read_block(0)`
fails with `InvalidBlockIndex` and the handle's metadata reflects
none of the file's contents. -/
theorem open_does_not_reconstruct_block_index :
    SSTable.open (SSTable.new.file ++ writeBlockData blkTest) =
      .ok { file := SSTable.new.file ++ writeBlockData blkTest,
            metadata := { point_count := 0, min_timestamp := i64Max,
                          max_timestamp := i64Min, series_names := [],
                          blocks := [] } }
    ∧ (∀ i : Nat, SSTable.readBlock
        { file := SSTable.new.file ++ writeBlockData blkTest,
          metadata := { point_count := 0, min_timestamp := i64Max,
                        max_timestamp := i64Min, series_names := [],
                        blocks := [] } } i = .error .InvalidBlockIndex)
    ∧ SSTable.readBlock (SSTable.writeBlock SSTable.new blkTest) 0 =
        .ok blkTest := by
  refine ⟨rfl, fun i => rfl, rfl⟩

/-- C8 (code bug).  After writing the repository's own test block
(`start = 1000`, deltas `[0, 1, 2]`), the reconstructed timestamps are
`[1000, 1001, 1003]`, yet the metadata's `max_timestamp` is `1002`
(`start + last delta` instead of the running-sum maximum) — a member
of the block exceeds the recorded maximum. -/
theorem write_block_max_timestamp_not_maximum :
    (SSTable.writeBlock SSTable.new blkTest).metadata.max_timestamp = 1002
    ∧ reconTimestamps blkTest.start_timestamp blkTest.timestamp_deltas =
        [1000, 1001, 1003]
    ∧ (1003 : Int) ∈
        reconTimestamps blkTest.start_timestamp blkTest.timestamp_deltas
    ∧ (SSTable.writeBlock SSTable.new blkTest).metadata.max_timestamp
        < 1003 := by
  refine ⟨by decide, by decide, by decide, by decide⟩

/-- C6 (confirmed).  `insert` returns `Err(InvalidTimestampOrder)`
exactly when the series already has points in this MemTable and the
point's timestamp is at most the series' last stored timestamp;
otherwise it returns `Ok(needs_flush)` with `needs_flush` true exactly
when `size + 1 ≥ capacity` for the pre-insert size, and stores the
point at the end of the series' vector. -/
theorem insert_contract (st : MemState) (name : List Byte) (p : DataPoint) :
    ((MemTable.insert st name p).1 = .error .InvalidTimestampOrder ↔
      ∃ pts lastp, findSeries st.data name = some pts ∧
        pts.getLast? = some lastp ∧ p.timestamp ≤ lastp.timestamp)
    ∧ ((MemTable.insert st name p).1 ≠ .error .InvalidTimestampOrder →
        (MemTable.insert st name p).1 =
          .ok (decide (st.size + 1 ≥ st.capacity))
        ∧ findSeries (MemTable.insert st name p).2.data name =
            some ((findSeries st.data name).getD [] ++ [p])
        ∧ (MemTable.insert st name p).2.size = st.size + 1) := by
  unfold MemTable.insert
  rcases hfind : findSeries st.data name with _ | pts
  · simp [hfind, findSeries_appendPoint, hfind]
  · rcases hlast : pts.getLast? with _ | lastp
    · simp [hfind, hlast, findSeries_appendPoint, hfind]
    · by_cases hle : p.timestamp ≤ lastp.timestamp
      · simp [hfind, hlast, hle]
      · simp [hfind, hlast, hle, findSeries_appendPoint, hfind]

/-- C9 (confirmed).  Whenever `insert` returns an error, the MemTable
state is unchanged, the error is `InvalidTimestampOrder`, and the
series already holds at least one point. -/
theorem insert_error_state_unchanged (st : MemState) (name : List Byte)
    (p : DataPoint) (e : MemTableError)
    (h : (MemTable.insert st name p).1 = .error e) :
    (MemTable.insert st name p).2 = st
    ∧ e = .InvalidTimestampOrder
    ∧ ∃ pts, findSeries st.data name = some pts ∧ pts ≠ [] := by
  unfold MemTable.insert at h ⊢
  rcases hfind : findSeries st.data name with _ | pts
  · simp [hfind] at h
  · rcases hlast : pts.getLast? with _ | lastp
    · simp [hfind, hlast] at h
    · by_cases hle : p.timestamp ≤ lastp.timestamp
      · simp [hfind, hlast, hle] at h ⊢
        refine ⟨h.symm, ?_⟩
        intro hnil
        rw [hnil] at hlast
        simp at hlast
      · simp [hfind, hlast, hle] at h

/-- Witness for C9: a state holding `(1000, 42.0)` for series `"s"`
rejects a second point with timestamp 1000 and is left unchanged. -/
theorem insert_error_state_unchanged_witness :
    (MemTable.insert memC1 [115] ⟨1000, 0, []⟩).2 = memC1
    ∧ MemTableError.InvalidTimestampOrder = .InvalidTimestampOrder
    ∧ ∃ pts, findSeries memC1.data [115] = some pts ∧ pts ≠ [] :=
  insert_error_state_unchanged memC1 [115] ⟨1000, 0, []⟩
    .InvalidTimestampOrder rfl

/-- Witness for C6: inserting into a fresh MemTable of capacity 2
succeeds without a flush signal and stores the point. -/
theorem insert_contract_witness :
    (MemTable.insert (MemTable.new 2) [115] ⟨1000, v42, []⟩).1 =
      .ok (decide ((MemTable.new 2).size + 1 ≥ (MemTable.new 2).capacity))
    ∧ findSeries (MemTable.insert (MemTable.new 2) [115] ⟨1000, v42, []⟩).2.data
        [115] =
      some ((findSeries (MemTable.new 2).data [115]).getD [] ++ [⟨1000, v42, []⟩])
    ∧ (MemTable.insert (MemTable.new 2) [115] ⟨1000, v42, []⟩).2.size =
        (MemTable.new 2).size + 1 :=
  (insert_contract (MemTable.new 2) [115] ⟨1000, v42, []⟩).2 (by
    intro h
    rw [show (MemTable.insert (MemTable.new 2) [115] ⟨1000, v42, []⟩).1 =
          Except.ok false from rfl] at h
    exact Except.noConfusion h)

/-- C7 counterexample.  A MemTable reached by two inserts (series
`"a"` point at 100, then series `"b"` point at 50, map iterating `"a"`
first) makes `get_range(0, 200)` return timestamps `[100, 50]` — not
timestamp-ascending across series: the code concatenates per-series
runs in `HashMap` iteration order without sorting. -/
theorem get_range_not_sorted_across_series :
    (MemTable.insert (MemTable.insert (MemTable.new 1000) [97]
        ⟨100, 0, []⟩).2 [98] ⟨50, 0, []⟩).2 = memC7
    ∧ ((MemTable.getRange memC7 0 200).map fun sp => sp.2.timestamp) =
        [100, 50]
    ∧ ¬ List.Pairwise (fun s t : Int => s ≤ t) [100, 50] := by
  refine ⟨rfl, rfl, by decide⟩

/-- Per-series projection of `get_range` output: with distinct map
keys, filtering the result to one series reproduces that series'
stored points filtered to the range, in stored order. -/
theorem getRange_series_proj (a b : Int) :
    ∀ (data : List (List Byte × List DataPoint)),
      (data.map Prod.fst).Nodup → ∀ n pts, findSeries data n = some pts →
      ((data.flatMap fun sp =>
          (sp.2.filter fun p => inRange a b p.timestamp).map
            fun p => (sp.1, p)).filterMap
          fun sp => if sp.1 = n then some sp.2 else none) =
        pts.filter fun p => inRange a b p.timestamp := by
  intro data
  induction data with
  | nil => intro _ n pts hf; cases hf
  | cons hd rest ih =>
    obtain ⟨m, qs⟩ := hd
    intro hkeys2 n pts hf
    rw [List.map_cons, List.nodup_cons] at hkeys2
    obtain ⟨hhd, hkeys1⟩ := hkeys2
    rw [List.flatMap_cons, List.filterMap_append]
    unfold findSeries at hf
    by_cases h : m = n
    · rw [if_pos h] at hf
      obtain rfl : qs = pts := by injection hf
      have h2 : ((rest.flatMap fun sp =>
          (sp.2.filter fun p => inRange a b p.timestamp).map
            fun p => (sp.1, p)).filterMap
          fun sp => if sp.1 = n then some sp.2 else none) = [] := by
        rw [List.filterMap_eq_nil_iff]
        intro x hx
        rw [List.mem_flatMap] at hx
        obtain ⟨sp, hsp, hx2⟩ := hx
        rw [List.mem_map] at hx2
        obtain ⟨p0, hp0, rfl⟩ := hx2
        have hmem : sp.1 ∈ rest.map Prod.fst := List.mem_map.mpr ⟨sp, hsp, rfl⟩
        rw [if_neg]
        intro heq
        rw [heq, ← h] at hmem
        exact hhd hmem
      rw [h2, List.append_nil, List.filterMap_map]
      have hcomp : ∀ p : DataPoint,
          ((fun sp : List Byte × DataPoint =>
            if sp.1 = n then some sp.2 else none) ∘ fun p => (m, p)) p =
            some p := by
        intro p
        simp [Function.comp, h]
      calc ((qs.filter fun p => inRange a b p.timestamp).filterMap
              ((fun sp : List Byte × DataPoint =>
                if sp.1 = n then some sp.2 else none) ∘ fun p => (m, p)))
          = (qs.filter fun p => inRange a b p.timestamp).filterMap some := by
            exact List.filterMap_congr (fun p _ => hcomp p)
        _ = qs.filter fun p => inRange a b p.timestamp := List.filterMap_some _
    · rw [if_neg h] at hf
      have h1 : (((qs.filter fun p => inRange a b p.timestamp).map
          fun p => (m, p)).filterMap fun sp =>
            if sp.1 = n then some sp.2 else none) = [] := by
        rw [List.filterMap_eq_nil_iff]
        intro x hx
        rw [List.mem_map] at hx
        obtain ⟨p0, hp0, rfl⟩ := hx
        simp [h]
      rw [h1, List.nil_append]
      exact ih hkeys1 n pts hf

/-- C7 (corrected).  `get_range(start, end)` returns exactly the
stored `(series_name, point)` pairs whose timestamp lies in
`[start, end]`, and filtering its output to any one series reproduces
that series' stored (timestamp-ascending) order; but across series
the output follows the map's iteration order, not timestamp order. -/
theorem get_range_exact_and_per_series_ordered (st : MemState) (a b : Int)
    (hkeys : (st.data.map Prod.fst).Nodup) :
    (∀ x, x ∈ MemTable.getRange st a b ↔
      (∃ pts, (x.1, pts) ∈ st.data ∧ x.2 ∈ pts)
      ∧ inRange a b x.2.timestamp)
    ∧ (∀ n pts, findSeries st.data n = some pts →
        ((MemTable.getRange st a b).filterMap fun sp =>
            if sp.1 = n then some sp.2 else none) =
          pts.filter fun p => inRange a b p.timestamp) := by
  constructor
  · intro x
    simp only [MemTable.getRange, List.mem_flatMap, List.mem_map,
      List.mem_filter]
    constructor
    · rintro ⟨sp, hsp, p0, ⟨hp0, hr⟩, rfl⟩
      exact ⟨⟨sp.2, by simpa using hsp, hp0⟩, hr⟩
    · rintro ⟨⟨pts, hpts, hp⟩, hr⟩
      exact ⟨(x.1, pts), hpts, x.2, ⟨hp, hr⟩, by simp⟩
  · intro n pts hf
    simpa [MemTable.getRange] using
      getRange_series_proj a b st.data hkeys n pts hf

/-- Witness for C7: on the two-series MemTable, projecting the
`get_range(0, 200)` output to series `"a"` returns that series'
points. -/
theorem get_range_exact_witness :
    ((MemTable.getRange memC7 0 200).filterMap fun sp =>
        if sp.1 = [97] then some sp.2 else none) =
      [⟨100, 0, []⟩].filter fun p => inRange 0 200 p.timestamp :=
  (get_range_exact_and_per_series_ordered memC7 0 200 (by decide)).2
    [97] [⟨100, 0, []⟩] rfl

/-- C10 counterexample.  A point with timestamp `-1` on a fresh series
is rejected by `DataPoint::validate` with `InvalidTimestamp` — not
with `NonIncreasingTimestamp` as the claim states for every
`timestamp ≤ 0`. -/
theorem add_point_negative_ts_error_kind :
    TimeSeries.new [115] = .ok ⟨[115], [], 0⟩
    ∧ TimeSeries.addPoint ⟨[115], [], 0⟩ ⟨-1, 0, []⟩ =
        .error .InvalidTimestamp
    ∧ DataError.InvalidTimestamp ≠ DataError.NonIncreasingTimestamp := by
  refine ⟨rfl, rfl, by decide⟩

/-- C10 (corrected).  A fresh `TimeSeries` initializes `last_timestamp`
to 0, so `add_point` rejects every point with timestamp ≤ 0: with
`NonIncreasingTimestamp` when the point passes validation (in
particular timestamp 0, which validation accepts), and with the
validation error (`InvalidTimestamp`) when the timestamp is negative. -/
theorem add_point_on_fresh_series (name : List Byte) (st : TSState)
    (h : TimeSeries.new name = .ok st) (p : DataPoint) :
    st.last_timestamp = 0
    ∧ (p.timestamp ≤ 0 → ∀ st2, TimeSeries.addPoint st p ≠ .ok st2)
    ∧ (p.timestamp = 0 → p.validate = .ok () →
        TimeSeries.addPoint st p = .error .NonIncreasingTimestamp)
    ∧ (p.timestamp < 0 → TimeSeries.addPoint st p = .error .InvalidTimestamp)
    ∧ DataPoint.validate ⟨0, p.value, []⟩ = .ok () := by
  unfold TimeSeries.new at h
  by_cases h1 : name = []
  · rw [if_pos h1] at h
    cases h
  rw [if_neg h1] at h
  by_cases h2 : ¬ asciiBytes name
  · rw [if_pos h2] at h
    cases h
  rw [if_neg h2] at h
  obtain rfl : ({ name, points := [], last_timestamp := 0 } : TSState) = st := by
    injection h
  refine ⟨rfl, ?_, ?_, ?_, rfl⟩
  · intro hts st2
    unfold TimeSeries.addPoint
    rcases hv : p.validate with e | u
    · intro hc
      cases hc
    · rw [if_pos (show p.timestamp ≤ (0 : Int) from hts)]
      intro hc
      cases hc
  · intro hts hval
    unfold TimeSeries.addPoint
    rw [hval, if_pos (show p.timestamp ≤ (0 : Int) from le_of_eq hts)]
  · intro hts
    have hval : p.validate = .error .InvalidTimestamp := by
      unfold DataPoint.validate
      rw [if_pos hts]
    unfold TimeSeries.addPoint
    rw [hval]

/-- Witness for C10: the first point with timestamp 0 (value bits 7)
on a fresh series `"s"` is rejected with `NonIncreasingTimestamp`. -/
theorem add_point_on_fresh_series_witness :
    TimeSeries.addPoint ⟨[115], [], 0⟩ ⟨0, 7, []⟩ =
      .error .NonIncreasingTimestamp :=
  (add_point_on_fresh_series [115] ⟨[115], [], 0⟩ rfl ⟨0, 7, []⟩).2.2.1 rfl rfl

theorem scanPoints_spec (qn : List Byte) (a b : Int) :
    ∀ (l : List (Int × Nat × List Byte)) (seen : List Int),
      (∀ t, t ∈ (scanPoints qn a b l seen).2 ↔
          t ∈ seen ∨ t ∈ (scanPoints qn a b l seen).1.map Prod.fst)
      ∧ (∀ tv ∈ (scanPoints qn a b l seen).1,
          (tv.1, tv.2, qn) ∈ l ∧ inRange a b tv.1 = true ∧ tv.1 ∉ seen)
      ∧ (∀ x ∈ l, x.2.2 = qn → inRange a b x.1 = true →
          x.1 ∈ (scanPoints qn a b l seen).2)
      ∧ ((scanPoints qn a b l seen).1.map Prod.fst).Nodup := by
  intro l
  induction l with
  | nil =>
    intro seen
    refine ⟨fun t => by simp [scanPoints], ?_, ?_, by simp [scanPoints]⟩
    · intro tv htv; simp [scanPoints] at htv
    · intro x hx; simp at hx
  | cons hd rest ih =>
    obtain ⟨t, v, n⟩ := hd
    intro seen
    by_cases hg : (inRange a b t && (n = qn : Bool) && !(seen.contains t)) = true
    · obtain ⟨⟨hr, hn⟩, hc⟩ :
          (inRange a b t = true ∧ (n = qn : Bool) = true)
          ∧ (!(seen.contains t)) = true := by
        rw [Bool.and_eq_true, Bool.and_eq_true] at hg
        exact ⟨hg.1, hg.2⟩
      have hn' : n = qn := by simpa using hn
      have hc' : t ∉ seen := by simpa using hc
      have hstep : scanPoints qn a b ((t, v, n) :: rest) seen =
          ((t, v) :: (scanPoints qn a b rest (t :: seen)).1,
           (scanPoints qn a b rest (t :: seen)).2) := by
        rw [scanPoints, hg]
        simp
      obtain ⟨ih1, ih2, ih3, ih4⟩ := ih (t :: seen)
      rw [hstep]
      refine ⟨?_, ?_, ?_, ?_⟩
      · intro s
        rw [ih1 s]
        simp only [List.mem_cons, List.map_cons]
        tauto
      · intro tv htv
        rcases List.mem_cons.mp htv with heq | hmem
        · subst heq
          exact ⟨by rw [hn']; exact List.mem_cons_self _ _, hr, hc'⟩
        · obtain ⟨h1, h2, h3⟩ := ih2 tv hmem
          exact ⟨List.mem_cons_of_mem _ h1, h2,
            fun hs => h3 (List.mem_cons_of_mem _ hs)⟩
      · intro x hx hxn hxr
        rcases List.mem_cons.mp hx with heq | hmem
        · subst heq
          exact (ih1 t).mpr (Or.inl (List.mem_cons_self _ _))
        · exact ih3 x hmem hxn hxr
      · rw [List.map_cons, List.nodup_cons]
        refine ⟨?_, ih4⟩
        intro hmem
        rw [List.mem_map] at hmem
        obtain ⟨tv, htv, hfst⟩ := hmem
        exact (ih2 tv htv).2.2 (hfst ▸ List.mem_cons_self _ _)
    · have hstep : scanPoints qn a b ((t, v, n) :: rest) seen =
          scanPoints qn a b rest seen := by
        have hgf : (inRange a b t && (n = qn : Bool) && !(seen.contains t)) =
            false := by
          simpa using hg
        rw [scanPoints, hgf]
        simp
      obtain ⟨ih1, ih2, ih3, ih4⟩ := ih seen
      rw [hstep]
      refine ⟨ih1, ?_, ?_, ih4⟩
      · intro tv htv
        obtain ⟨h1, h2, h3⟩ := ih2 tv htv
        exact ⟨List.mem_cons_of_mem _ h1, h2, h3⟩
      · intro x hx hxn hxr
        rcases List.mem_cons.mp hx with heq | hmem
        · subst heq
          have hts : t ∈ seen := by
            by_contra hts
            apply hg
            simp only [Bool.and_eq_true]
            refine ⟨⟨hxr, by simpa using hxn⟩, by simpa using hts⟩
          exact (ih1 t).mpr (Or.inl hts)
        · exact ih3 x hmem hxn hxr


theorem inRange_iff (a b t : Int) : inRange a b t = true ↔ a ≤ t ∧ t ≤ b := by
  unfold inRange
  rw [Bool.and_eq_true, decide_eq_true_iff, decide_eq_true_iff]


theorem scanBlock_spec (qn : List Byte) (a b : Int) (blk : DataBlock)
    (seen : List Int) :
    (∀ t, t ∈ (scanBlock qn a b blk seen).2 ↔
        t ∈ seen ∨ t ∈ (scanBlock qn a b blk seen).1.map Prod.fst)
    ∧ (∀ tv ∈ (scanBlock qn a b blk seen).1,
        (tv.1, tv.2, qn) ∈ decodedPoints blk ∧ inRange a b tv.1 = true
        ∧ tv.1 ∉ seen)
    ∧ ((∀ x ∈ decodedPoints blk, blk.start_timestamp ≤ x.1) →
        ∀ x ∈ decodedPoints blk, x.2.2 = qn → inRange a b x.1 = true →
          x.1 ∈ (scanBlock qn a b blk seen).2)
    ∧ ((scanBlock qn a b blk seen).1.map Prod.fst).Nodup := by
  unfold scanBlock
  by_cases h : blk.start_timestamp ≤ b
  · rw [if_pos h]
    obtain ⟨s1, s2, s3, s4⟩ := scanPoints_spec qn a b (decodedPoints blk) seen
    exact ⟨s1, s2, fun _ => s3, s4⟩
  · rw [if_neg h]
    refine ⟨fun t => by simp, ?_, ?_, by simp⟩
    · intro tv htv; simp at htv
    · intro hwf x hx hxn hxr
      exact absurd (le_trans (hwf x hx) ((inRange_iff a b x.1).mp hxr).2) h

theorem scanBlockList_spec (qn : List Byte) (a b : Int) :
    ∀ (blocks : List DataBlock) (seen : List Int),
      (∀ t, t ∈ (scanBlockList qn a b blocks seen).2 ↔
          t ∈ seen ∨ t ∈ (scanBlockList qn a b blocks seen).1.map Prod.fst)
      ∧ (∀ tv ∈ (scanBlockList qn a b blocks seen).1,
          (∃ blk ∈ blocks, (tv.1, tv.2, qn) ∈ decodedPoints blk)
          ∧ inRange a b tv.1 = true ∧ tv.1 ∉ seen)
      ∧ ((∀ blk ∈ blocks, ∀ x ∈ decodedPoints blk,
            blk.start_timestamp ≤ x.1) →
          ∀ blk ∈ blocks, ∀ x ∈ decodedPoints blk, x.2.2 = qn →
            inRange a b x.1 = true →
            x.1 ∈ (scanBlockList qn a b blocks seen).2)
      ∧ ((scanBlockList qn a b blocks seen).1.map Prod.fst).Nodup := by
  intro blocks
  induction blocks with
  | nil =>
    intro seen
    refine ⟨fun t => by simp [scanBlockList], ?_, ?_, by simp [scanBlockList]⟩
    · intro tv htv; simp [scanBlockList] at htv
    · intro _ blk hblk; simp at hblk
  | cons blk rest ih =>
    intro seen
    have hstep : scanBlockList qn a b (blk :: rest) seen =
        ((scanBlock qn a b blk seen).1 ++
           (scanBlockList qn a b rest (scanBlock qn a b blk seen).2).1,
         (scanBlockList qn a b rest (scanBlock qn a b blk seen).2).2) := by
      rw [scanBlockList]
    obtain ⟨b1, b2, b3, b4⟩ := scanBlock_spec qn a b blk seen
    obtain ⟨i1, i2, i3, i4⟩ := ih (scanBlock qn a b blk seen).2
    rw [hstep]
    refine ⟨?_, ?_, ?_, ?_⟩
    · intro t
      rw [i1 t, b1 t]
      simp only [List.map_append, List.mem_append]
      tauto
    · intro tv htv
      rcases List.mem_append.mp htv with h1 | h2
      · obtain ⟨hsrc, hr, hs⟩ := b2 tv h1
        exact ⟨⟨blk, List.mem_cons_self _ _, hsrc⟩, hr, hs⟩
      · obtain ⟨⟨blk2, hblk2, hsrc⟩, hr, hs⟩ := i2 tv h2
        refine ⟨⟨blk2, List.mem_cons_of_mem _ hblk2, hsrc⟩, hr, ?_⟩
        intro hmem
        exact hs ((b1 tv.1).mpr (Or.inl hmem))
    · intro hwf blk2 hblk2 x hx hxn hxr
      rcases List.mem_cons.mp hblk2 with heq | hmem
      · subst heq
        have hx1 := b3 (fun y hy => hwf blk2 (List.mem_cons_self _ _) y hy)
          x hx hxn hxr
        exact (i1 x.1).mpr (Or.inl hx1)
      · exact i3 (fun y hy z hz => hwf y (List.mem_cons_of_mem _ hy) z hz)
          blk2 hmem x hx hxn hxr
    · rw [List.map_append]
      rw [List.nodup_append]
      refine ⟨b4, i4, ?_⟩
      intro s hs1 hs2
      rw [List.mem_map] at hs2
      obtain ⟨tv, htv, rfl⟩ := hs2
      exact (i2 tv htv).2.2 ((b1 tv.1).mpr (Or.inr hs1))

theorem getSeriesRange_filter_self (mem : MemState) (qn : List Byte)
    (a b : Int) :
    (MemTable.getSeriesRange mem qn a b).filter
        (fun p => inRange a b p.timestamp) =
      MemTable.getSeriesRange mem qn a b := by
  unfold MemTable.getSeriesRange
  rcases findSeries mem.data qn with _ | pts
  · rfl
  · rw [List.filter_filter]
    apply List.filter_congr
    intro p hp
    rw [Bool.and_self]

theorem getSeriesRange_sub (mem : MemState) (qn : List Byte) (a b : Int) :
    ∀ p ∈ MemTable.getSeriesRange mem qn a b,
      p ∈ (findSeries mem.data qn).getD [] ∧ inRange a b p.timestamp = true := by
  intro p hp
  unfold MemTable.getSeriesRange at hp
  rcases hf : findSeries mem.data qn with _ | pts
  · rw [hf] at hp; cases hp
  · rw [hf] at hp
    rw [List.mem_filter] at hp
    exact ⟨hp.1, hp.2⟩

theorem merge_core (qn : List Byte) (a b : Int) (M : List DataPoint)
    (blocks : List DataBlock) (E : List (Int × Nat)) (R : List DataPoint)
    (hE : E = (scanBlockList qn a b blocks (M.map DataPoint.timestamp)).1)
    (hR : R = sortByTimestamp (M ++ E.map fun tv => ⟨tv.1, tv.2, []⟩))
    (hMrange : ∀ p ∈ M, inRange a b p.timestamp = true)
    (hMpair : List.Pairwise
      (fun p q : DataPoint => p.timestamp < q.timestamp) M)
    (hwfb : ∀ blk ∈ blocks, ∀ x ∈ decodedPoints blk,
      blk.start_timestamp ≤ x.1) :
    (∀ p ∈ R, inRange a b p.timestamp = true)
    ∧ List.Pairwise (fun s t : Int => s < t) (R.map DataPoint.timestamp)
    ∧ (∀ p ∈ M, p ∈ R)
    ∧ (∀ blk ∈ blocks, ∀ x ∈ decodedPoints blk,
        x.2.2 = qn → inRange a b x.1 = true →
        ∃ p ∈ R, p.timestamp = x.1)
    ∧ (∀ p ∈ R, p ∈ M ∨ ∃ blk ∈ blocks,
        (p.timestamp, p.value, qn) ∈ decodedPoints blk)
    ∧ (∀ p ∈ M, ∀ p2 ∈ R, p2.timestamp = p.timestamp → p2 = p) := by
  obtain ⟨S1, S2, S3, S4⟩ :=
    scanBlockList_spec qn a b blocks (M.map DataPoint.timestamp)
  rw [← hE] at S1 S2 S4
  have hperm : List.Perm R (M ++ E.map fun tv => (⟨tv.1, tv.2, []⟩ : DataPoint)) := by
    rw [hR]
    exact List.perm_insertionSort tsLE _
  have hmemR : ∀ p, p ∈ R ↔
      p ∈ M ∨ p ∈ E.map fun tv => (⟨tv.1, tv.2, []⟩ : DataPoint) := by
    intro p
    rw [hperm.mem_iff, List.mem_append]
  have hMts : List.Pairwise (fun s t : Int => s < t)
      (M.map DataPoint.timestamp) := List.pairwise_map.mpr hMpair
  have hMts_nodup : (M.map DataPoint.timestamp).Nodup :=
    hMts.imp ne_of_lt
  have hEdisj : ∀ t ∈ E.map Prod.fst, t ∉ M.map DataPoint.timestamp := by
    intro t ht
    obtain ⟨tv, htv, rfl⟩ := List.mem_map.mp ht
    exact (S2 tv htv).2.2
  have hLmap : (M ++ E.map fun tv =>
        (⟨tv.1, tv.2, []⟩ : DataPoint)).map DataPoint.timestamp =
      M.map DataPoint.timestamp ++ E.map Prod.fst := by
    rw [List.map_append, List.map_map]
    rfl
  have hRno : (R.map DataPoint.timestamp).Nodup := by
    rw [(hperm.map DataPoint.timestamp).nodup_iff, hLmap,
      List.nodup_append]
    exact ⟨hMts_nodup, S4, fun t ht1 ht2 => hEdisj t ht2 ht1⟩
  have hRle : List.Pairwise (fun s t : Int => s ≤ t)
      (R.map DataPoint.timestamp) := by
    rw [hR]
    exact List.pairwise_map.mpr (List.sorted_insertionSort tsLE _)
  have hRlt : List.Pairwise (fun s t : Int => s < t)
      (R.map DataPoint.timestamp) :=
    (hRle.and hRno).imp fun h => lt_of_le_of_ne h.1 h.2
  refine ⟨?_, hRlt, ?_, ?_, ?_, ?_⟩
  · intro p hp
    rcases (hmemR p).mp hp with hpM | hpE
    · exact hMrange p hpM
    · obtain ⟨tv, htv, rfl⟩ := List.mem_map.mp hpE
      exact (S2 tv htv).2.1
  · intro p hpM
    exact (hmemR p).mpr (Or.inl hpM)
  · intro blk hblk x hx hxn hxr
    have hxseen := S3 hwfb blk hblk x hx hxn hxr
    rcases (S1 x.1).mp hxseen with hseen | hemit
    · obtain ⟨p, hpM, hpts⟩ := List.mem_map.mp hseen
      exact ⟨p, (hmemR p).mpr (Or.inl hpM), hpts⟩
    · obtain ⟨tv, htv, hfst⟩ := List.mem_map.mp hemit
      exact ⟨⟨tv.1, tv.2, []⟩,
        (hmemR _).mpr (Or.inr (List.mem_map.mpr ⟨tv, htv, rfl⟩)), hfst⟩
  · intro p hp
    rcases (hmemR p).mp hp with hpM | hpE
    · exact Or.inl hpM
    · obtain ⟨tv, htv, rfl⟩ := List.mem_map.mp hpE
      obtain ⟨⟨blk, hblk, hsrc⟩, _, _⟩ := S2 tv htv
      exact Or.inr ⟨blk, hblk, hsrc⟩
  · intro p hpM p2 hp2 hts
    exact List.inj_on_of_nodup_map hRno hp2 ((hmemR p).mpr (Or.inl hpM)) hts

/-- C2 (corrected, amended).  For a query `(series, [start, end])`
over a MemTable whose per-series timestamps are strictly increasing
(its stated invariant) and SSTables whose decoded blocks place no
point before their `start_timestamp` (the writers' convention of
nonnegative running deltas), `route_query` returns: only points
inside `[start, end]`; strictly increasing timestamps — sorted
ascending with at most one point per timestamp; every matching
MemTable point verbatim; at least one point for every matching
timestamp decoded from any SSTable block; nothing that does not come
from one of the two tiers; and on a timestamp present in both tiers
the MemTable point is the one returned. -/
theorem route_query_merge (mem : MemState) (ssts : List SSTableState)
    (qn : List Byte) (a b : Int)
    (hmem : List.Pairwise (fun p q : DataPoint => p.timestamp < q.timestamp)
      ((findSeries mem.data qn).getD []))
    (hwf : ∀ st ∈ ssts, ∀ blk ∈ SSTable.scanBlocks st,
        ∀ x ∈ decodedPoints blk, blk.start_timestamp ≤ x.1) :
    (∀ p ∈ routeQuery mem ssts qn a b, a ≤ p.timestamp ∧ p.timestamp ≤ b)
    ∧ List.Pairwise (fun s t : Int => s < t)
        ((routeQuery mem ssts qn a b).map DataPoint.timestamp)
    ∧ (∀ p ∈ MemTable.getSeriesRange mem qn a b,
        p ∈ routeQuery mem ssts qn a b)
    ∧ (∀ st ∈ ssts, ∀ blk ∈ SSTable.scanBlocks st, ∀ x ∈ decodedPoints blk,
        x.2.2 = qn → a ≤ x.1 → x.1 ≤ b →
        ∃ p ∈ routeQuery mem ssts qn a b, p.timestamp = x.1)
    ∧ (∀ p ∈ routeQuery mem ssts qn a b,
        p ∈ MemTable.getSeriesRange mem qn a b
        ∨ ∃ st ∈ ssts, ∃ blk ∈ SSTable.scanBlocks st,
            (p.timestamp, p.value, qn) ∈ decodedPoints blk)
    ∧ (∀ p ∈ MemTable.getSeriesRange mem qn a b,
        ∀ p2 ∈ routeQuery mem ssts qn a b,
          p2.timestamp = p.timestamp → p2 = p) := by
  have hMrange : ∀ p ∈ MemTable.getSeriesRange mem qn a b,
      inRange a b p.timestamp = true :=
    fun p hp => (getSeriesRange_sub mem qn a b p hp).2
  have hMpair : List.Pairwise
      (fun p q : DataPoint => p.timestamp < q.timestamp)
      (MemTable.getSeriesRange mem qn a b) := by
    unfold MemTable.getSeriesRange
    rcases hf : findSeries mem.data qn with _ | pts
    · exact List.Pairwise.nil
    · refine List.Pairwise.sublist (List.filter_sublist _) ?_
      rw [hf] at hmem
      exact hmem
  have hwfb : ∀ blk ∈ (ssts.map SSTable.scanBlocks).flatten,
      ∀ x ∈ decodedPoints blk, blk.start_timestamp ≤ x.1 := by
    intro blk hblk x hx
    rw [List.mem_flatten] at hblk
    obtain ⟨l, hl, hblk2⟩ := hblk
    obtain ⟨st, hst, rfl⟩ := List.mem_map.mp hl
    exact hwf st hst blk hblk2 x hx
  obtain ⟨G1, G2, G3, G4, G5, G6⟩ := merge_core qn a b
    (MemTable.getSeriesRange mem qn a b)
    ((ssts.map SSTable.scanBlocks).flatten) _ _ rfl rfl
    hMrange hMpair hwfb
  have hRQ : routeQuery mem ssts qn a b =
      sortByTimestamp (MemTable.getSeriesRange mem qn a b ++
        (scanBlockList qn a b (ssts.map SSTable.scanBlocks).flatten
          ((MemTable.getSeriesRange mem qn a b).map
            DataPoint.timestamp)).1.map fun tv => ⟨tv.1, tv.2, []⟩) := by
    simp only [routeQuery, getSeriesRange_filter_self]
  rw [hRQ]
  refine ⟨?_, G2, G3, ?_, ?_, G6⟩
  · intro p hp
    exact (inRange_iff a b p.timestamp).mp (G1 p hp)
  · intro st hst blk hblk x hx hxn hxa hxb
    have hblk' : blk ∈ (ssts.map SSTable.scanBlocks).flatten :=
      List.mem_flatten.mpr ⟨SSTable.scanBlocks st,
        List.mem_map.mpr ⟨st, hst, rfl⟩, hblk⟩
    exact G4 blk hblk' x hx hxn ((inRange_iff a b x.1).mpr ⟨hxa, hxb⟩)
  · intro p hp
    rcases G5 p hp with hpM | ⟨blk, hblk, hsrc⟩
    · exact Or.inl hpM
    · rw [List.mem_flatten] at hblk
      obtain ⟨l, hl, hblk2⟩ := hblk
      obtain ⟨st, hst, rfl⟩ := List.mem_map.mp hl
      exact Or.inr ⟨st, hst, blk, hblk2, hsrc⟩


/-- C2 counterexample.  With an SSTable holding a single block whose
start timestamp (300) exceeds the query end (200) but whose one point
decodes to timestamp 150 — inside `[100, 200]` and for the queried
series — `route_query` returns the empty list: the block is skipped
before its points are examined, so the result is not the union of
matching points from both tiers. -/
theorem route_query_skips_block_with_matching_point :
    routeQuery (MemTable.new 1000) [SSTable.writeBlock SSTable.new blkC2]
        [115] 100 200 = []
    ∧ SSTable.scanBlocks (SSTable.writeBlock SSTable.new blkC2) = [blkC2]
    ∧ decodedPoints blkC2 = [(150, 5, [115])]
    ∧ inRange 100 200 150 = true := by
  refine ⟨rfl, rfl, rfl, rfl⟩

/-- Witness for C2: on the repository's own merge scenario (MemTable
points at 150 and 200, SSTable block with points at 100 and 150), the
query `("s", [90, 210])` returns a point with timestamp 100. -/
theorem route_query_merge_witness :
    ∃ p ∈ routeQuery memC2w [SSTable.writeBlock SSTable.new blkC2w]
        [115] 90 210, p.timestamp = 100 :=
  (route_query_merge memC2w [SSTable.writeBlock SSTable.new blkC2w]
      [115] 90 210 (by decide) (by decide)).2.2.2.1
    (SSTable.writeBlock SSTable.new blkC2w) (by decide)
    blkC2w (by decide) (100, 7, [115]) (by decide) rfl (by decide) (by decide)

end Vctsdb
